import Mathlib

/-!
# Verification of the subtitle tokenizer / reconstructor core

Shallow embedding of `resources/lib/subtitles/subtitle.py`:
the tokenizer regex `line_regex`, and the classes `SrtFrase`, `SrtLine`,
`SrtBlock`, `SrtDoc`, together with proofs of the specified properties.

Strings are modelled as `List Char`.  Python's `str.strip()` and the regex
class `\s` are modelled over the ASCII whitespace characters
(space, tab, newline, vertical tab, form feed, carriage return); all inputs
exercised here are ASCII.
-/

namespace TranslateSubs

abbrev Str := List Char

/-- The ASCII whitespace characters stripped by Python's `str.strip()` and
matched by the regex class `\s`. -/
def pyIsSpace (c : Char) : Bool :=
  c = ' ' || c = '\t' || c = '\n' || c = '\x0b' || c = '\x0c' || c = '\r'

/-- Python `str.strip()`: drop leading and trailing whitespace. -/
def pyStrip (s : Str) : Str :=
  ((s.dropWhile pyIsSpace).reverse.dropWhile pyIsSpace).reverse

/-- Python `str.split('\n')`: split on every newline, keeping empty parts;
the result is always non-empty. -/
def splitOnNl : Str → List Str
  | [] => [[]]
  | c :: r =>
    if c = '\n' then [] :: splitOnNl r
    else
      match splitOnNl r with
      | h :: t => (c :: h) :: t
      | [] => [[c]]

/-- Python `str.split('\n\n')`: split on each leftmost non-overlapping
occurrence of two consecutive newlines. -/
def splitOnNlNl : Str → List Str
  | [] => [[]]
  | [c] => [[c]]
  | c :: c2 :: r =>
    if c = '\n' ∧ c2 = '\n' then [] :: splitOnNlNl r
    else
      match splitOnNlNl (c2 :: r) with
      | h :: t => (c :: h) :: t
      | [] => [[c]]

/-- Join a list of strings with a separator (Python `sep.join(parts)`). -/
def joinSep (sep : Str) : List Str → Str
  | [] => []
  | [x] => x
  | x :: xs => x ++ sep ++ joinSep sep xs

/-- Concatenate a list of strings (Python `''.join(parts)`). -/
def joinAll : List Str → Str
  | [] => []
  | x :: xs => x ++ joinAll xs

/-- Decimal digits of a natural number (fuel-driven so that it reduces). -/
def natDigitsAux : Nat → Nat → Str
  | 0, _ => []
  | fuel + 1, n =>
    if n < 10 then [Nat.digitChar n]
    else natDigitsAux fuel (n / 10) ++ [Nat.digitChar (n % 10)]

/-- Python `str(n)` for a natural number. -/
def natRepr (n : Nat) : Str := natDigitsAux (n + 1) n

/-!
## The tokenizer regex

    line_regex = re.compile(
      r'(<\s*font[^>]*>)(?:<\s*[^/f][^>]*>)?(.*?)(?:<\s*/[^f][^>]*>)?((?(1)<\s*/font\s*)+>)
       |(?:^|(?<=>))([^<>]+)')

Each sub-matcher maps a suffix of the input to the list of
`(consumed text, remaining suffix)` candidates in the backtracking engine's
preference order; a sequential composition is a `flatMap` in that order and
the overall match is the first candidate of the whole pattern.
-/

/-- All splits of the leading run of characters satisfying `p`, longest
first: the candidate list of a greedy `p*`. -/
def runSplitsGreedy (p : Char → Bool) : Str → List (Str × Str)
  | [] => [([], [])]
  | c :: r =>
    if p c then
      ((runSplitsGreedy p r).map fun q => (c :: q.1, q.2)) ++ [([], c :: r)]
    else [([], c :: r)]

/-- Match a literal string, deterministically. -/
def litP : Str → Str → Option Str
  | [], s => some s
  | _ :: _, [] => none
  | c :: cs, d :: ds => if c = d then litP cs ds else none

/-- Candidate list of the lazy `(.*?)`: prefixes of the leading run of
non-newline characters, shortest first. -/
def lazyDot : Str → List (Str × Str)
  | [] => [([], [])]
  | c :: r =>
    if c = '\n' then [([], c :: r)]
    else ([], c :: r) :: (lazyDot r).map fun q => (c :: q.1, q.2)

/-- Greedy `(?:m)?`: try the inner matcher first, then the empty match. -/
def optGreedy (m : Str → List (Str × Str)) (s : Str) : List (Str × Str) :=
  m s ++ [([], s)]

/-- Greedy `(?:m)+` (fuel-driven; every matcher used with it consumes at
least one character, so the fuel `length + 1` is never exhausted). -/
def plusGreedyAux (m : Str → List (Str × Str)) : Nat → Str → List (Str × Str)
  | 0, _ => []
  | fuel + 1, s =>
    (m s).flatMap fun q =>
      if q.2.length < s.length then
        ((plusGreedyAux m fuel q.2).map fun q2 => (q.1 ++ q2.1, q2.2)) ++ [q]
      else [q]

def plusGreedy (m : Str → List (Str × Str)) (s : Str) : List (Str × Str) :=
  plusGreedyAux m (s.length + 1) s

/-- Close a tag: require a literal `>` and emit `pre` extended with it. -/
def consumeGt (pre : Str) : Str → List (Str × Str)
  | [] => []
  | d :: r => if d = '>' then [(pre ++ ['>'], r)] else []

/-- Group 1, `<\s*font[^>]*>`. -/
def tagFontOpen (s : Str) : List (Str × Str) :=
  match s with
  | [] => []
  | c :: r =>
    if c = '<' then
      (runSplitsGreedy pyIsSpace r).flatMap fun q =>
        match litP ('f' :: 'o' :: 'n' :: 't' :: []) q.2 with
        | none => []
        | some r2 =>
          (runSplitsGreedy (fun d => !(d = '>' : Bool)) r2).flatMap fun q2 =>
            consumeGt ('<' :: (q.1 ++ ('f' :: 'o' :: 'n' :: 't' :: []) ++ q2.1)) q2.2
    else []

/-- The discarded non-font opening tag, `(?:<\s*[^/f][^>]*>)`. -/
def tagNonFontOpen (s : Str) : List (Str × Str) :=
  match s with
  | [] => []
  | c :: r =>
    if c = '<' then
      (runSplitsGreedy pyIsSpace r).flatMap fun q =>
        match q.2 with
        | [] => []
        | e :: r2 =>
          if e = '/' ∨ e = 'f' then []
          else
            (runSplitsGreedy (fun d => !(d = '>' : Bool)) r2).flatMap fun q2 =>
              match q2.2 with
              | [] => []
              | d :: r4 =>
                if d = '>' then [('<' :: (q.1 ++ (e :: q2.1) ++ ['>']), r4)]
                else []
    else []

/-- The discarded non-font closing tag, `(?:<\s*/[^f][^>]*>)`. -/
def tagNonFontClose (s : Str) : List (Str × Str) :=
  match s with
  | [] => []
  | c :: r =>
    if c = '<' then
      (runSplitsGreedy pyIsSpace r).flatMap fun q =>
        match q.2 with
        | [] => []
        | sl :: r1 =>
          if sl = '/' then
            match r1 with
            | [] => []
            | e :: r2 =>
              if e = 'f' then []
              else
                (runSplitsGreedy (fun d => !(d = '>' : Bool)) r2).flatMap fun q2 =>
                  match q2.2 with
                  | [] => []
                  | d :: r4 =>
                    if d = '>' then [('<' :: (q.1 ++ ('/' :: e :: q2.1) ++ ['>']), r4)]
                    else []
          else []
    else []

/-- One font-closing token, `<\s*/font\s*`. -/
def closeTok (s : Str) : List (Str × Str) :=
  match s with
  | [] => []
  | c :: r =>
    if c = '<' then
      (runSplitsGreedy pyIsSpace r).flatMap fun q =>
        match litP ('/' :: 'f' :: 'o' :: 'n' :: 't' :: []) q.2 with
        | none => []
        | some r2 =>
          (runSplitsGreedy pyIsSpace r2).map fun q2 =>
            ('<' :: (q.1 ++ ('/' :: 'f' :: 'o' :: 'n' :: 't' :: []) ++ q2.1), q2.2)
    else []

/-- Group 3, `((?(1)<\s*/font\s*)+>)`: inside the first alternative group 1
has always matched, so the conditional requires the font-closing token. -/
def group3M (s : Str) : List (Str × Str) :=
  (plusGreedy closeTok s).flatMap fun q => consumeGt q.1 q.2

/-- A match of `line_regex`: the four captured groups (`none` models a group
that did not participate) and the full matched text. -/
structure RMatch where
  g1 : Option Str
  g2 : Option Str
  g3 : Option Str
  g4 : Option Str
  mtext : Str
deriving DecidableEq, Repr

/-- First alternative of `line_regex`:
`(<\s*font[^>]*>)(?:<\s*[^/f][^>]*>)?(.*?)(?:<\s*/[^f][^>]*>)?((?(1)<\s*/font\s*)+>)`. -/
def tryAlt1 (s : Str) : List (RMatch × Str) :=
  (tagFontOpen s).flatMap fun o =>
    (optGreedy tagNonFontOpen o.2).flatMap fun k1 =>
      (lazyDot k1.2).flatMap fun t =>
        (optGreedy tagNonFontClose t.2).flatMap fun k2 =>
          (group3M k2.2).map fun cl =>
            (⟨some o.1, some t.1, some cl.1, none,
              o.1 ++ k1.1 ++ t.1 ++ k2.1 ++ cl.1⟩, cl.2)

/-- Second alternative of `line_regex`, `(?:^|(?<=>))([^<>]+)`; `anchored`
says whether the current position is the string start or preceded by `>`. -/
def tryAlt2 (anchored : Bool) (s : Str) : List (RMatch × Str) :=
  if anchored then
    (runSplitsGreedy (fun d => !(d = '<' : Bool) && !(d = '>' : Bool)) s).filterMap
      fun q =>
        if q.1 = [] then none
        else some (⟨none, none, none, some q.1, q.1⟩, q.2)
  else []

/-- Try the whole pattern at the current position: the first alternative with
all of its backtracking is preferred over the second. -/
def tryMatch (anchored : Bool) (s : Str) : Option (RMatch × Str) :=
  (tryAlt1 s ++ tryAlt2 anchored s).head?

/-- Does the matched text end in `>` (for the look-behind at the position
following a match)? -/
def endsGt (s : Str) : Bool :=
  match s.getLast? with
  | some c => c = '>'
  | none => false

/-- `line_regex.finditer`: scan left to right, at each position try the whole
pattern, emit the match and resume after it, otherwise advance one character.
Both alternatives always consume at least one character, so the fuel
`length + 1` is never exhausted. -/
def finditerAux : Nat → Bool → Str → List RMatch
  | 0, _, _ => []
  | _ + 1, _, [] => []
  | fuel + 1, anchored, c :: rest =>
    match tryMatch anchored (c :: rest) with
    | some (m, r) => m :: finditerAux fuel (endsGt m.mtext) r
    | none => finditerAux fuel (c = '>') rest

def finditer (s : Str) : List RMatch :=
  finditerAux (s.length + 1) true s

/-!
## The data model: `SrtFrase`, `SrtLine`, `SrtBlock`, `SrtDoc`
-/

/-- `SrtFrase`: one span of translatable text with its optional markup. -/
structure SrtFrase where
  ignoreCol : Bool
  open_tags : Str
  text : Str
  closing_tags : Str
deriving DecidableEq, Repr

/-- `SrtFrase.__init__`: `None` tags become `''`, the text is stripped. -/
def mkSrtFrase (text : Str) (openTags closingTags : Option Str) (ignoreColours : Bool) :
    SrtFrase :=
  ⟨ignoreColours, openTags.getD [], pyStrip text, closingTags.getD []⟩

/-- `SrtFrase.__str__`. -/
def fraseStr (f : SrtFrase) : Str :=
  if f.text = [] then []
  else if f.ignoreCol then f.text
  else f.open_tags ++ f.text ++ f.closing_tags

/-- `SrtFrase.__bool__`. -/
def fraseBool (f : SrtFrase) : Bool := !(f.text = [] : Bool)

/-- `SrtLine`: the spans of one physical subtitle text line. -/
structure SrtLine where
  ignoreCol : Bool
  frases : List SrtFrase
deriving DecidableEq, Repr

/-- `SrtLine._parse_text`: for each regex match take `group(4) or group(2)`
(Python truthiness: a present non-empty group 4 wins, otherwise group 2),
strip it, and keep only non-empty results. -/
def pyOr (a b : Option Str) : Str :=
  match a with
  | some t => if t = [] then b.getD [] else t
  | none => b.getD []

def srtLineParseMatches (ms : List RMatch) (ignorCol : Bool) : List SrtFrase :=
  ms.filterMap fun m =>
    if pyStrip (pyOr m.g4 m.g2) = [] then none
    else some (mkSrtFrase (pyStrip (pyOr m.g4 m.g2)) m.g1 m.g3 ignorCol)

/-- `SrtLine.__init__`. -/
def srtLineParse (text : Str) (ignoreColours : Bool) : SrtLine :=
  ⟨ignoreColours, srtLineParseMatches (finditer text) ignoreColours⟩

/-- `SrtLine.__str__`. -/
def lineStr (l : SrtLine) : Str :=
  if l.frases = [] then []
  else joinSep [' '] (l.frases.map fraseStr)

/-- `SrtLine.__bool__`. -/
def lineBool (l : SrtLine) : Bool := !(l.frases = [] : Bool)

/-- `SrtBlock`: index label, time-range label, lines, plus the dynamic
`text` attribute (absent at construction) that `SrtDoc.text`'s setter
assigns — its value is a block of the assigned document. -/
inductive SrtBlock : Type where
  | mk : Str → Str → List SrtLine → Option SrtBlock → SrtBlock

def SrtBlock.idx : SrtBlock → Str
  | .mk i _ _ _ => i

def SrtBlock.time : SrtBlock → Str
  | .mk _ t _ _ => t

def SrtBlock.lines : SrtBlock → List SrtLine
  | .mk _ _ ls _ => ls

def SrtBlock.textAttr : SrtBlock → Option SrtBlock
  | .mk _ _ _ a => a

def SrtBlock.setIdx : SrtBlock → Str → SrtBlock
  | .mk _ t ls a, i => .mk i t ls a

def SrtBlock.setTextAttr : SrtBlock → Option SrtBlock → SrtBlock
  | .mk i t ls _, a => .mk i t ls a

theorem SrtBlock.idx_mk (i t : Str) (ls : List SrtLine) (a : Option SrtBlock) :
    (SrtBlock.mk i t ls a).idx = i := rfl

theorem SrtBlock.time_mk (i t : Str) (ls : List SrtLine) (a : Option SrtBlock) :
    (SrtBlock.mk i t ls a).time = t := rfl

theorem SrtBlock.lines_mk (i t : Str) (ls : List SrtLine) (a : Option SrtBlock) :
    (SrtBlock.mk i t ls a).lines = ls := rfl

theorem SrtBlock.textAttr_mk (i t : Str) (ls : List SrtLine) (a : Option SrtBlock) :
    (SrtBlock.mk i t ls a).textAttr = a := rfl

/-- The partially assigned fields of `SrtBlock._parse`'s `try` body at the
moment an `IndexError` escapes (or at its successful end). -/
structure BState where
  idx : Str
  time : Str
  lns : List SrtLine

/-- Python `lines[i]`: out of range raises `IndexError`. -/
def pyGet (l : List Str) (i : Nat) : Except Unit Str :=
  match l.get? i with
  | some x => .ok x
  | none => .error ()

/-- The `try` body of `SrtBlock._parse`: assign `idx` from `lines[0]`, then
`_time` from `lines[1]`, then parse `lines[2:]`; an `IndexError` aborts with
the state reached so far. -/
def srtBlockTryBody (ls : List Str) (noCol : Bool) : Except BState BState :=
  let st0 : BState := ⟨[], [], []⟩
  match pyGet ls 0 with
  | .error _ => .error st0
  | .ok l0 =>
    let st1 : BState := ⟨l0, [], []⟩
    match pyGet ls 1 with
    | .error _ => .error st1
    | .ok l1 =>
      .ok ⟨l0, l1, (ls.drop 2).filterMap fun line =>
        let lineObj := srtLineParse (pyStrip line) noCol
        if lineBool lineObj then some lineObj else none⟩

/-- `SrtBlock.__init__` / `SrtBlock._parse`: the `except IndexError: pass`
keeps whatever fields were assigned before the error. -/
def srtBlockParse (blockStr : Str) (ignoreColours : Bool) : SrtBlock :=
  match srtBlockTryBody (splitOnNl (pyStrip blockStr)) ignoreColours with
  | .ok st => .mk st.idx st.time st.lns none
  | .error st => .mk st.idx st.time st.lns none

/-- `SrtBlock.__bool__`. -/
def blockBool (b : SrtBlock) : Bool := !(b.lines = [] : Bool)

/-- `SrtBlock.__str__`. -/
def blockStr (b : SrtBlock) : Str :=
  if blockBool b then
    joinSep ['\n'] ([b.idx, b.time] ++ ((b.lines.filter lineBool).map lineStr) ++ [['\n']])
  else []

/-- `SrtDoc`: the whole subtitle file. -/
structure SrtDoc where
  blocks : List SrtBlock

/-- `SrtDoc.__init__`: split on blank lines, drop empty chunks, parse each
chunk as a block. -/
def srtDocParse (srtDoc : Str) (ignoreColours : Bool) : SrtDoc :=
  ⟨((splitOnNlNl srtDoc).filter fun b => !(b = [] : Bool)).map
    fun b => srtBlockParse b ignoreColours⟩

/-- The generator inside `SrtDoc.__str__`: re-index and render all non-empty
blocks, the counter starting at `idx`. -/
def docStrAux : Nat → List SrtBlock → List Str
  | _, [] => []
  | i, b :: bs =>
    if blockBool b then blockStr (b.setIdx (natRepr i)) :: docStrAux (i + 1) bs
    else docStrAux i bs

/-- `SrtDoc.__str__`. -/
def docStr (d : SrtDoc) : Str :=
  joinAll (docStrAux 1 d.blocks)

/-- `SrtDoc.frases`: flattened span traversal in document order
(`for block in self.blocks: for line in block.lines: yield from line`). -/
def docFrases (d : SrtDoc) : List SrtFrase :=
  d.blocks.flatMap fun b => b.lines.flatMap fun l => l.frases

/-- Python error kinds observable from the `SrtDoc.text` getter. -/
inductive PyErr : Type where
  | attributeError
  | typeError
deriving DecidableEq, Repr

/-- The `SrtDoc.text` getter, `''.join(block.text for block in self.blocks)`:
`block.text` is the dynamic attribute — absent on a freshly parsed block
(`AttributeError`), and holding an `SrtBlock` (not a `str`, so `str.join`
raises `TypeError`) once the setter has assigned it. -/
def docTextGetAux : List SrtBlock → Except PyErr Str
  | [] => .ok []
  | b :: bs =>
    match b.textAttr with
    | none => .error .attributeError
    | some _ =>
      match docTextGetAux bs with
      | .ok _ => .error .typeError
      | .error e => .error e

def docTextGet (d : SrtDoc) : Except PyErr Str :=
  docTextGetAux d.blocks

/-- The `SrtDoc.text` setter,
`for orig, trans in zip(self.blocks, value.blocks): orig.text = trans`:
each paired block gets the dynamic `text` attribute assigned. -/
def docTextSetAux : List SrtBlock → List SrtBlock → List SrtBlock
  | [], _ => []
  | bs, [] => bs
  | b :: bs, t :: ts => b.setTextAttr (some t) :: docTextSetAux bs ts

def docTextSet (d v : SrtDoc) : SrtDoc :=
  ⟨docTextSetAux d.blocks v.blocks⟩

/-!
## Helper lemmas
-/

theorem dropWhile_head_false {p : Char → Bool} {l : Str} :
    ∀ {c r}, l.dropWhile p = c :: r → p c = false := by
  induction l with
  | nil => intro c r h; simp at h
  | cons a l ih =>
    intro c r h
    rw [List.dropWhile_cons] at h
    by_cases hpa : p a = true
    · rw [if_pos hpa] at h; exact ih h
    · rw [if_neg hpa] at h
      cases h
      simpa using hpa

theorem dropWhile_eq_self_of_head {p : Char → Bool} {l : Str}
    (h : ∀ c r, l = c :: r → p c = false) : l.dropWhile p = l := by
  cases l with
  | nil => rfl
  | cons a l =>
    rw [List.dropWhile_cons, if_neg]
    simp [h a l rfl]

theorem dropWhile_is_suffix (p : Char → Bool) (l : Str) :
    ∃ t, l = t ++ l.dropWhile p := by
  induction l with
  | nil => exact ⟨[], rfl⟩
  | cons a l ih =>
    by_cases hpa : p a = true
    · obtain ⟨t, ht⟩ := ih
      refine ⟨a :: t, ?_⟩
      rw [List.dropWhile_cons, if_pos hpa]
      simpa using ht
    · refine ⟨[], ?_⟩
      rw [List.dropWhile_cons, if_neg hpa]
      simp

/-- The first character of a stripped string is not whitespace. -/
theorem pyStrip_head_false {s : Str} {c : Char} {r : Str}
    (h : pyStrip s = c :: r) : pyIsSpace c = false := by
  unfold pyStrip at h
  obtain ⟨t, ht⟩ := dropWhile_is_suffix pyIsSpace (s.dropWhile pyIsSpace).reverse
  have hu : s.dropWhile pyIsSpace =
      ((s.dropWhile pyIsSpace).reverse.dropWhile pyIsSpace).reverse ++ t.reverse := by
    have := congrArg List.reverse ht
    simpa using this
  rw [h] at hu
  exact dropWhile_head_false hu

/-- `str.strip()` is idempotent. -/
theorem pyStrip_idem (s : Str) : pyStrip (pyStrip s) = pyStrip s := by
  cases hs : pyStrip s with
  | nil => rfl
  | cons c r =>
    have h1 : (c :: r).dropWhile pyIsSpace = c :: r :=
      dropWhile_eq_self_of_head fun d r2 hdr => by
        cases hdr; exact pyStrip_head_false hs
    have h2 : (c :: r).reverse.dropWhile pyIsSpace = (c :: r).reverse := by
      apply dropWhile_eq_self_of_head
      intro d r2 hdr
      have hv : ((s.dropWhile pyIsSpace).reverse.dropWhile pyIsSpace) = (c :: r).reverse := by
        have := congrArg List.reverse hs
        simpa [pyStrip] using this
      rw [← hv] at hdr
      exact dropWhile_head_false hdr
    unfold pyStrip
    rw [h1, h2]
    simp

/-!
## The claims
-/

/-- **C5.** For every input chunk whose stripped content has fewer than 2
newline-separated lines, block construction does not raise: it returns the
block whose `idx` is the single line when one exists (and `''` otherwise),
with an empty `time` and an empty `lines` sequence. -/
theorem claim_C5 (chunk : Str) (ic : Bool)
    (h : (splitOnNl (pyStrip chunk)).length < 2) :
    srtBlockParse chunk ic =
      SrtBlock.mk ((splitOnNl (pyStrip chunk)).headD []) [] [] none := by
  cases hls : splitOnNl (pyStrip chunk) with
  | nil =>
    unfold srtBlockParse
    rw [hls]
    rfl
  | cons l0 rest =>
    cases rest with
    | nil =>
      unfold srtBlockParse
      rw [hls]
      rfl
    | cons l1 rest2 =>
      rw [hls] at h
      simp at h
      omega

theorem claim_C5_witness :
    (splitOnNl (pyStrip ("42").toList)).length < 2 ∧
    srtBlockParse ("42").toList false =
      SrtBlock.mk ((splitOnNl (pyStrip ("42").toList)).headD []) [] [] none :=
  ⟨by decide, claim_C5 (("42").toList) false (by decide)⟩

/-- **C6.** Span render: empty text renders to `''`; otherwise the bare text
when markup is suppressed, else `open_markup ++ text ++ close_markup`; and
the tagged example parsed with `suppress_markup = true` renders to `Hello`
with the tags dropped. -/
theorem claim_C6 :
    (∀ f : SrtFrase, fraseStr f =
      if f.text = [] then []
      else if f.ignoreCol = true then f.text
      else f.open_tags ++ f.text ++ f.closing_tags) ∧
    lineStr (srtLineParse ("<font color=\"#ff0000\">Hello</font>").toList true) =
      ("Hello").toList := by
  constructor
  · intro f; rfl
  · decide

/-- **C3.** Parsing `<font color="#ff0000">Hello</font>` with
`suppress_markup = false` yields exactly one span with text `Hello`, the
full opening tag and the full closing tag, and rendering the line reproduces
the input exactly. -/
theorem claim_C3 :
    (srtLineParse ("<font color=\"#ff0000\">Hello</font>").toList false).frases =
      [⟨false, ("<font color=\"#ff0000\">").toList, ("Hello").toList, ("</font>").toList⟩] ∧
    lineStr (srtLineParse ("<font color=\"#ff0000\">Hello</font>").toList false) =
      ("<font color=\"#ff0000\">Hello</font>").toList := by
  decide

/-- **C7.** Every span held by a parsed line has non-empty,
whitespace-trimmed text, and parsing `<font color="red"></font>` yields a
line with zero spans. -/
theorem claim_C7 (line : Str) (ic : Bool) :
    (∀ f ∈ (srtLineParse line ic).frases, f.text ≠ [] ∧ pyStrip f.text = f.text) ∧
    (srtLineParse ("<font color=\"red\"></font>").toList false).frases = [] := by
  constructor
  · intro f hf
    simp only [srtLineParse, srtLineParseMatches, List.mem_filterMap] at hf
    obtain ⟨m, _, hm⟩ := hf
    by_cases ht : pyStrip (pyOr m.g4 m.g2) = []
    · rw [if_pos ht] at hm
      cases hm
    · rw [if_neg ht] at hm
      cases hm
      refine ⟨?_, ?_⟩
      · show pyStrip (pyStrip (pyOr m.g4 m.g2)) ≠ []
        rw [pyStrip_idem]
        exact ht
      · show pyStrip (pyStrip (pyStrip (pyOr m.g4 m.g2))) =
          pyStrip (pyStrip (pyOr m.g4 m.g2))
        rw [pyStrip_idem]
  · decide

theorem claim_C7_witness :
    ("Hi").toList ≠ [] ∧ pyStrip ("Hi").toList = ("Hi").toList :=
  (claim_C7 (("Hi").toList) false).1 ⟨false, [], ("Hi").toList, []⟩ (by decide)

/-- Document render as the spec words it: keep the blocks that have lines,
in order, and render the `k`-th survivor with its `index` set to the string
form of `k` counting from 1. -/
def docStrSpec (d : SrtDoc) : Str :=
  joinAll (((d.blocks.filter blockBool).enumFrom 1).map
    fun p => blockStr (p.2.setIdx (natRepr p.1)))

theorem docStrAux_eq_enumFrom (bs : List SrtBlock) :
    ∀ i, docStrAux i bs = ((bs.filter blockBool).enumFrom i).map
      (fun p => blockStr (p.2.setIdx (natRepr p.1))) := by
  induction bs with
  | nil => intro i; rfl
  | cons b bs ih =>
    intro i
    by_cases hb : blockBool b = true
    · simp only [docStrAux, if_pos hb, List.filter_cons_of_pos hb, List.enumFrom_cons,
        List.map_cons, ih (i + 1)]
    · simp only [docStrAux, if_neg hb, List.filter_cons_of_neg hb, ih i]

/-- **C2.** Document render iterates blocks in source order, skips blocks
with no lines, renumbers the survivors `1, 2, ...` and concatenates their
renders with no extra separator; the document with blocks indexed
`1`, `5` (no text) and `7` renders to exactly two blocks indexed `1`, `2`. -/
theorem claim_C2 :
    (∀ d : SrtDoc, docStr d = docStrSpec d) ∧
    (docStrAux 1 (srtDocParse ("1\nT1\nHello\n\n5\nT2\n\n7\nT3\nWorld").toList false).blocks).length = 2 ∧
    docStr (srtDocParse ("1\nT1\nHello\n\n5\nT2\n\n7\nT3\nWorld").toList false) =
      ("1\nT1\nHello\n\n2\nT3\nWorld\n\n").toList := by
  refine ⟨fun d => ?_, by decide, by decide⟩
  unfold docStr docStrSpec
  rw [docStrAux_eq_enumFrom]

theorem blockBool_setTextAttr (b : SrtBlock) (a : Option SrtBlock) :
    blockBool (b.setTextAttr a) = blockBool b := by
  cases b; rfl

theorem blockStr_setTextAttr (b : SrtBlock) (a : Option SrtBlock) :
    blockStr (b.setTextAttr a) = blockStr b := by
  cases b; rfl

theorem setIdx_setTextAttr (b : SrtBlock) (a : Option SrtBlock) (i : Str) :
    (b.setTextAttr a).setIdx i = (b.setIdx i).setTextAttr a := by
  cases b; rfl

theorem docStrAux_textSet (bs : List SrtBlock) :
    ∀ (ts : List SrtBlock) (i : Nat), docStrAux i (docTextSetAux bs ts) = docStrAux i bs := by
  induction bs with
  | nil => intro ts i; cases ts <;> rfl
  | cons b bs ih =>
    intro ts i
    cases ts with
    | nil => rfl
    | cons t ts =>
      show docStrAux i (b.setTextAttr (some t) :: docTextSetAux bs ts) = _
      unfold docStrAux
      rw [blockBool_setTextAttr, setIdx_setTextAttr, blockStr_setTextAttr, ih, ih]

/-- **C9.** Executing the `SrtDoc.text` setter (which writes the dynamic
`text` attribute onto each paired block) leaves the result of document
render unchanged: render never reads that attribute. -/
theorem claim_C9 (d v : SrtDoc) :
    docStr (docTextSet d v) = docStr d := by
  unfold docStr docTextSet
  exact congrArg joinAll (docStrAux_textSet d.blocks v.blocks 1)

theorem srtBlockParse_textAttr (c : Str) (ic : Bool) :
    (srtBlockParse c ic).textAttr = none := by
  unfold srtBlockParse
  cases srtBlockTryBody (splitOnNl (pyStrip c)) ic <;> rfl

/-- **C10.** Reading the `SrtDoc.text` getter on a freshly parsed document
with at least one block raises `AttributeError`: no parsed block carries the
dynamic `text` attribute. -/
theorem claim_C10 (s : Str) (ic : Bool)
    (h : (srtDocParse s ic).blocks ≠ []) :
    docTextGet (srtDocParse s ic) = .error .attributeError := by
  cases hl : (splitOnNlNl s).filter (fun b => !(b = [] : Bool)) with
  | nil =>
    exfalso
    apply h
    show ((splitOnNlNl s).filter fun b => !(b = [] : Bool)).map
      (fun b => srtBlockParse b ic) = []
    rw [hl]
    rfl
  | cons c cs =>
    have hb : (srtDocParse s ic).blocks = (c :: cs).map fun b => srtBlockParse b ic := by
      show ((splitOnNlNl s).filter fun b => !(b = [] : Bool)).map
        (fun b => srtBlockParse b ic) = _
      rw [hl]
    show docTextGetAux ((srtDocParse s ic).blocks) = _
    rw [hb]
    show docTextGetAux (srtBlockParse c ic :: cs.map fun b => srtBlockParse b ic) = _
    unfold docTextGetAux
    rw [srtBlockParse_textAttr]

theorem claim_C10_witness :
    docTextGet (srtDocParse ("1\nT\nHi").toList false) = .error .attributeError :=
  claim_C10 (("1\nT\nHi").toList) false (by
    have h1 : ((srtDocParse ("1\nT\nHi").toList false).blocks).length = 1 := by decide
    intro hc
    rw [hc] at h1
    simp at h1)

/-!
## Positional text substitution (the translator collaborator's write-back)

The translation stage reads `text` from every span in traversal order and
writes the translated strings back by position, mutating only the spans'
`text` fields.  `writeTexts` expresses that non-structural mutation in the
pure embedding, so that the stability of two `frases()` passes around it can
be stated.
-/

/-- Write `ts` into the `text` fields of `fs` by position; spans beyond
`ts.length` are unchanged. -/
def writeList : List SrtFrase → List Str → List SrtFrase
  | [], _ => []
  | f :: fs, [] => f :: fs
  | f :: fs, t :: ts => { f with text := t } :: writeList fs ts

def writeLines : List SrtLine → List Str → List SrtLine
  | [], _ => []
  | l :: ls, ts =>
    ⟨l.ignoreCol, writeList l.frases ts⟩ :: writeLines ls (ts.drop l.frases.length)

/-- Number of spans of a block. -/
def numFrasesBlock (b : SrtBlock) : Nat :=
  (b.lines.map fun l => l.frases.length).sum

def writeBlocks : List SrtBlock → List Str → List SrtBlock
  | [], _ => []
  | b :: bs, ts =>
    SrtBlock.mk b.idx b.time (writeLines b.lines ts) b.textAttr ::
      writeBlocks bs (ts.drop (numFrasesBlock b))

def writeTexts (d : SrtDoc) (ts : List Str) : SrtDoc :=
  ⟨writeBlocks d.blocks ts⟩

theorem writeList_nil (fs : List SrtFrase) : writeList fs [] = fs := by
  cases fs <;> rfl

theorem writeList_length (fs : List SrtFrase) :
    ∀ ts, (writeList fs ts).length = fs.length := by
  induction fs with
  | nil => intro ts; rfl
  | cons f fs ih =>
    intro ts
    cases ts with
    | nil => rfl
    | cons t ts => simp [writeList, ih ts]

theorem writeList_append (fs gs : List SrtFrase) :
    ∀ ts, writeList (fs ++ gs) ts = writeList fs ts ++ writeList gs (ts.drop fs.length) := by
  induction fs with
  | nil => intro ts; rfl
  | cons f fs ih =>
    intro ts
    cases ts with
    | nil => simp [writeList_nil]
    | cons t ts => simp [writeList, ih ts, List.drop_succ_cons]

theorem writeLines_flat (ls : List SrtLine) :
    ∀ ts, (writeLines ls ts).flatMap (fun l => l.frases) =
      writeList (ls.flatMap fun l => l.frases) ts := by
  induction ls with
  | nil => intro ts; rfl
  | cons l ls ih =>
    intro ts
    simp only [writeLines, List.flatMap_cons, ih, writeList_append]

theorem writeBlocks_flat (bs : List SrtBlock) :
    ∀ ts, (writeBlocks bs ts).flatMap (fun b => b.lines.flatMap fun l => l.frases) =
      writeList (bs.flatMap fun b => b.lines.flatMap fun l => l.frases) ts := by
  induction bs with
  | nil => intro ts; rfl
  | cons b bs ih =>
    intro ts
    obtain ⟨bi, bt, bls, ba⟩ := b
    have hlen : (bls.flatMap fun l => l.frases).length =
        numFrasesBlock (SrtBlock.mk bi bt bls ba) := by
      simp [numFrasesBlock, List.length_flatMap, Function.comp_def, SrtBlock.lines_mk]
    simp only [writeBlocks, List.flatMap_cons, SrtBlock.lines_mk, writeLines_flat, ih,
      writeList_append]
    rw [hlen]

/-- **C4.** The flattened span traversal is deterministic, order-preserving
and restartable: after positionally writing texts back (the only
non-structural mutation), a second traversal yields exactly the first
traversal's spans — in the same order, with only `text` replaced — and the
two passes have the same length. -/
theorem claim_C4 (d : SrtDoc) (ts : List Str) :
    docFrases (writeTexts d ts) = writeList (docFrases d) ts ∧
    (writeList (docFrases d) ts).length = (docFrases d).length := by
  constructor
  · exact writeBlocks_flat d.blocks ts
  · exact writeList_length (docFrases d) ts

/-!
## The plain-line round trip
-/

theorem runSplitsGreedy_cons (p : Char → Bool) (c : Char) (r : Str) :
    runSplitsGreedy p (c :: r) =
      if p c then ((runSplitsGreedy p r).map fun q => (c :: q.1, q.2)) ++ [([], c :: r)]
      else [([], c :: r)] := rfl

theorem runSplitsGreedy_full {p : Char → Bool} {s : Str} (h : ∀ c ∈ s, p c = true) :
    ∃ t, runSplitsGreedy p s = (s, []) :: t := by
  induction s with
  | nil => exact ⟨[], rfl⟩
  | cons c r ih =>
    obtain ⟨t, ht⟩ := ih fun d hd => h d (List.mem_cons_of_mem c hd)
    refine ⟨t.map (fun q => (c :: q.1, q.2)) ++ [([], c :: r)], ?_⟩
    rw [runSplitsGreedy_cons, if_pos (h c (List.mem_cons_self c r)), ht]
    rfl

theorem finditerAux_nil (fuel : Nat) (anchored : Bool) :
    finditerAux fuel anchored [] = [] := by
  cases fuel <;> rfl

theorem finditerAux_succ_cons (fuel : Nat) (anchored : Bool) (c : Char) (rest : Str) :
    finditerAux (fuel + 1) anchored (c :: rest) =
      match tryMatch anchored (c :: rest) with
      | some (m, r) => m :: finditerAux fuel (endsGt m.mtext) r
      | none => finditerAux fuel (c = '>') rest := rfl

theorem tagFontOpen_cons (c : Char) (r : Str) (h : ¬c = '<') :
    tagFontOpen (c :: r) = [] := by
  simp only [tagFontOpen]
  rw [if_neg h]

theorem tryAlt1_not_lt {c : Char} {r : Str} (h : ¬c = '<') :
    tryAlt1 (c :: r) = [] := by
  unfold tryAlt1
  rw [tagFontOpen_cons c r h]
  rfl

/-- On a markup-free line the scan produces one match: the whole line as
group 4. -/
theorem finditer_noMarkup {line : Str}
    (h : ∀ c ∈ line, ¬c = '<' ∧ ¬c = '>') :
    finditer line =
      if line = [] then [] else [⟨none, none, none, some line, line⟩] := by
  cases hl : line with
  | nil => rfl
  | cons c r =>
    rw [if_neg (by simp)]
    have hplain : ∀ d ∈ c :: r, (!(d = '<' : Bool) && !(d = '>' : Bool)) = true := by
      intro d hd
      have := h d (hl ▸ hd)
      simp [this.1, this.2]
    obtain ⟨t, ht⟩ := runSplitsGreedy_full hplain
    have halt2 : tryAlt2 true (c :: r) =
        (⟨none, none, none, some (c :: r), c :: r⟩, ([] : Str)) ::
          t.filterMap (fun q =>
            if q.1 = [] then none
            else some (⟨none, none, none, some q.1, q.1⟩, q.2)) := by
      unfold tryAlt2
      rw [if_pos rfl, ht]
      rw [List.filterMap_cons]
      simp
    have halt1 : tryAlt1 (c :: r) = [] :=
      tryAlt1_not_lt (h c (hl ▸ List.mem_cons_self c r)).1
    have hm : tryMatch true (c :: r) =
        some (⟨none, none, none, some (c :: r), c :: r⟩, ([] : Str)) := by
      unfold tryMatch
      rw [halt1, halt2]
      rfl
    show finditerAux (r.length + 1 + 1) true (c :: r) = _
    rw [finditerAux_succ_cons, hm]
    show (⟨none, none, none, some (c :: r), c :: r⟩ : RMatch) ::
        finditerAux (r.length + 1) (endsGt (c :: r)) [] = _
    rw [finditerAux_nil]

/-- **C1 (amended).** For a line with no markup, rendering the parsed line
returns the original line with leading and trailing whitespace removed —
interior whitespace is preserved as written, not collapsed. -/
theorem claim_C1 (line : Str) (ic : Bool)
    (h : ∀ c ∈ line, ¬c = '<' ∧ ¬c = '>') :
    lineStr (srtLineParse line ic) = pyStrip line := by
  unfold srtLineParse lineStr
  rw [finditer_noMarkup h]
  by_cases hl : line = []
  · rw [if_pos hl, hl]
    rfl
  · rw [if_neg hl]
    unfold srtLineParseMatches
    rw [List.filterMap_cons]
    have hor : pyOr (some line) none = line := by
      simp only [pyOr]
      rw [if_neg hl]
    by_cases hstrip : pyStrip line = []
    · rw [show (if pyStrip (pyOr (some line) none) = [] then none
          else some (mkSrtFrase (pyStrip (pyOr (some line) none)) none none ic)) =
          none from by rw [hor, if_pos hstrip]]
      rw [hstrip]
      rfl
    · rw [show (if pyStrip (pyOr (some line) none) = [] then none
          else some (mkSrtFrase (pyStrip (pyOr (some line) none)) none none ic)) =
          some (mkSrtFrase (pyStrip line) none none ic) from by rw [hor, if_neg hstrip]]
      show (if [mkSrtFrase (pyStrip line) none none ic] = ([] : List SrtFrase) then []
        else joinSep [' '] ([mkSrtFrase (pyStrip line) none none ic].map fraseStr)) = _
      rw [if_neg (by simp)]
      show fraseStr (mkSrtFrase (pyStrip line) none none ic) = pyStrip line
      unfold fraseStr mkSrtFrase
      rw [pyStrip_idem]
      simp only [Option.getD_none]
      rw [if_neg hstrip]
      cases ic with
      | true => rw [if_pos rfl]
      | false =>
        rw [if_neg (by simp)]
        simp

theorem claim_C1_witness :
    lineStr (srtLineParse ("from the start").toList false) =
      pyStrip ("from the start").toList :=
  claim_C1 (("from the start").toList) false (by decide)

/-- Whitespace normalization as the original claim words it: split the line
on whitespace runs and rejoin the pieces with single spaces. -/
def wsWords : Str → List Str
  | [] => []
  | c :: r =>
    if pyIsSpace c then wsWords r
    else
      match r with
      | [] => [[c]]
      | c2 :: _ =>
        if pyIsSpace c2 then [c] :: wsWords r
        else
          match wsWords r with
          | h :: t => (c :: h) :: t
          | [] => [[c]]

def wsCollapse (s : Str) : Str := joinSep [' '] (wsWords s)

/-- **C1 (counterexample).** On `a  b` (two interior spaces, no markup) the
render of the parse keeps both spaces, so it differs from the
whitespace-collapsed line `a b` required by the claim. -/
theorem claim_C1_cex :
    lineStr (srtLineParse ("a  b").toList false) = ("a  b").toList ∧
    wsCollapse (("a  b").toList) = ("a b").toList ∧
    lineStr (srtLineParse ("a  b").toList false) ≠ wsCollapse (("a  b").toList) := by
  refine ⟨by decide, by decide, by decide⟩

/-!
## The shape of the closing capture (group 3)
-/

def allSpace (w : Str) : Prop := ∀ c ∈ w, pyIsSpace c = true

/-- One font-closing token as matched by `<\s*/font\s*`. -/
def CloseTokShape (t : Str) : Prop :=
  ∃ w1 w2, allSpace w1 ∧ allSpace w2 ∧
    t = '<' :: (w1 ++ ('/' :: 'f' :: 'o' :: 'n' :: 't' :: []) ++ w2)

/-- The shape of a group-3 capture: one or more font-closing tokens followed
by a single final `>`. -/
def Group3Shape (s : Str) : Prop :=
  ∃ parts : List Str, parts ≠ [] ∧ (∀ t ∈ parts, CloseTokShape t) ∧
    s = joinAll parts ++ ['>']

/-- The shape of a group-1 capture: exactly one font-opening tag
`<\s*font[^>]*>`. -/
def FontOpenShape (o : Str) : Prop :=
  ∃ w b, allSpace w ∧ (∀ ch ∈ b, ¬ch = '>') ∧
    o = '<' :: (w ++ ('f' :: 'o' :: 'n' :: 't' :: []) ++ b ++ ['>'])

theorem runSplitsGreedy_mem {p : Char → Bool} {s : Str} {q : Str × Str}
    (hq : q ∈ runSplitsGreedy p s) : ∀ c ∈ q.1, p c = true := by
  induction s generalizing q with
  | nil =>
    simp only [runSplitsGreedy, List.mem_singleton] at hq
    subst hq
    simp
  | cons c r ih =>
    rw [runSplitsGreedy_cons] at hq
    by_cases hc : p c = true
    · rw [if_pos hc] at hq
      rcases List.mem_append.1 hq with hq1 | hq2
      · obtain ⟨a, ha, rfl⟩ := List.mem_map.1 hq1
        intro d hd
        rcases List.mem_cons.1 hd with rfl | hd2
        · exact hc
        · exact ih ha d hd2
      · rw [List.mem_singleton] at hq2
        subst hq2
        simp
    · rw [if_neg hc, List.mem_singleton] at hq
      subst hq
      simp

theorem litP_eq {pat : Str} : ∀ {s r : Str}, litP pat s = some r → s = pat ++ r := by
  induction pat with
  | nil =>
    intro s r h
    simp only [litP, Option.some.injEq] at h
    simpa using h
  | cons c cs ih =>
    intro s r h
    cases s with
    | nil => exact Option.noConfusion h
    | cons d ds =>
      simp only [litP] at h
      by_cases hcd : c = d
      · rw [if_pos hcd] at h
        rw [List.cons_append, ← hcd, ih h]
      · rw [if_neg hcd] at h
        exact Option.noConfusion h

theorem closeTok_mem {s : Str} {q : Str × Str} (hq : q ∈ closeTok s) :
    CloseTokShape q.1 := by
  cases s with
  | nil => simp [closeTok] at hq
  | cons c r =>
    simp only [closeTok] at hq
    by_cases hc : c = '<'
    · rw [if_pos hc] at hq
      simp only [List.mem_flatMap] at hq
      obtain ⟨q1, hq1, hin⟩ := hq
      cases hlit : litP ('/' :: 'f' :: 'o' :: 'n' :: 't' :: []) q1.2 with
      | none => rw [hlit] at hin; cases hin
      | some r2 =>
        rw [hlit] at hin
        obtain ⟨q2, hq2, rfl⟩ := List.mem_map.1 hin
        exact ⟨q1.1, q2.1, runSplitsGreedy_mem hq1, runSplitsGreedy_mem hq2, rfl⟩
    · rw [if_neg hc] at hq
      cases hq

theorem plusGreedyAux_closeTok_shape :
    ∀ (fuel : Nat) (s : Str) (q : Str × Str), q ∈ plusGreedyAux closeTok fuel s →
      ∃ parts : List Str, parts ≠ [] ∧ (∀ t ∈ parts, CloseTokShape t) ∧
        q.1 = joinAll parts := by
  intro fuel
  induction fuel with
  | zero => intro s q hq; cases hq
  | succ fuel ih =>
    intro s q hq
    simp only [plusGreedyAux, List.mem_flatMap] at hq
    obtain ⟨q1, hq1, hin⟩ := hq
    by_cases hlen : q1.2.length < s.length
    · rw [if_pos hlen] at hin
      rcases List.mem_append.1 hin with h1 | h2
      · obtain ⟨q2, hq2, rfl⟩ := List.mem_map.1 h1
        obtain ⟨parts2, hne, hsh, hjoin⟩ := ih q1.2 q2 hq2
        refine ⟨q1.1 :: parts2, by simp, ?_, ?_⟩
        · intro t ht
          rcases List.mem_cons.1 ht with rfl | ht2
          · exact closeTok_mem hq1
          · exact hsh t ht2
        · show q1.1 ++ q2.1 = q1.1 ++ joinAll parts2
          rw [hjoin]
      · rw [List.mem_singleton] at h2
        subst h2
        exact ⟨[q.1], by simp, by simpa using closeTok_mem hq1, by simp [joinAll]⟩
    · rw [if_neg hlen, List.mem_singleton] at hin
      subst hin
      exact ⟨[q.1], by simp, by simpa using closeTok_mem hq1, by simp [joinAll]⟩

theorem group3M_mem {s : Str} {q : Str × Str} (hq : q ∈ group3M s) :
    Group3Shape q.1 := by
  simp only [group3M, List.mem_flatMap] at hq
  obtain ⟨q1, hq1, hin⟩ := hq
  cases hr : q1.2 with
  | nil => rw [hr] at hin; simp [consumeGt] at hin
  | cons d r2 =>
    rw [hr] at hin
    simp only [consumeGt] at hin
    by_cases hd : d = '>'
    · rw [if_pos hd, List.mem_singleton] at hin
      subst hin
      obtain ⟨parts, hne, hsh, hjoin⟩ :=
        plusGreedyAux_closeTok_shape (s.length + 1) s q1 hq1
      exact ⟨parts, hne, hsh, by rw [hjoin]⟩
    · rw [if_neg hd] at hin
      cases hin

theorem tagFontOpen_mem {s : Str} {q : Str × Str} (hq : q ∈ tagFontOpen s) :
    FontOpenShape q.1 := by
  cases s with
  | nil => simp [tagFontOpen] at hq
  | cons c r =>
    simp only [tagFontOpen] at hq
    by_cases hc : c = '<'
    · rw [if_pos hc] at hq
      simp only [List.mem_flatMap] at hq
      obtain ⟨q1, hq1, hin⟩ := hq
      cases hlit : litP ('f' :: 'o' :: 'n' :: 't' :: []) q1.2 with
      | none => rw [hlit] at hin; cases hin
      | some r2 =>
        rw [hlit] at hin
        simp only [List.mem_flatMap] at hin
        obtain ⟨q2, hq2, hin2⟩ := hin
        cases hr3 : q2.2 with
        | nil => rw [hr3] at hin2; simp [consumeGt] at hin2
        | cons d r4 =>
          rw [hr3] at hin2
          simp only [consumeGt] at hin2
          by_cases hd : d = '>'
          · rw [if_pos hd, List.mem_singleton] at hin2
            subst hin2
            refine ⟨q1.1, q2.1, runSplitsGreedy_mem hq1, ?_, by simp⟩
            intro ch hch
            have := runSplitsGreedy_mem hq2 ch hch
            simpa using this
          · rw [if_neg hd] at hin2
            cases hin2
    · rw [if_neg hc] at hq
      cases hq

theorem tryAlt1_mem {s : Str} {m : RMatch} {r : Str} (hm : (m, r) ∈ tryAlt1 s) :
    (∃ c, m.g3 = some c ∧ Group3Shape c) ∧ (∃ o, m.g1 = some o ∧ FontOpenShape o) := by
  simp only [tryAlt1, List.mem_flatMap, List.mem_map] at hm
  obtain ⟨o, ho, k1, hk1, t, ht, k2, hk2, cl, hcl, heq⟩ := hm
  injection heq with h1 h2
  subst h1
  exact ⟨⟨cl.1, rfl, group3M_mem hcl⟩, ⟨o.1, rfl, tagFontOpen_mem ho⟩⟩

theorem tryAlt2_mem {anchored : Bool} {s : Str} {m : RMatch} {r : Str}
    (hm : (m, r) ∈ tryAlt2 anchored s) : m.g3 = none ∧ m.g1 = none := by
  unfold tryAlt2 at hm
  by_cases ha : anchored = true
  · rw [if_pos ha] at hm
    obtain ⟨q, _, hq⟩ := List.mem_filterMap.1 hm
    by_cases hq1 : q.1 = []
    · rw [if_pos hq1] at hq; cases hq
    · rw [if_neg hq1] at hq
      injection hq with hq
      injection hq with h1 h2
      subst h1
      exact ⟨rfl, rfl⟩
  · rw [if_neg ha] at hm
    cases hm

theorem head?_mem {α : Type} {l : List α} {x : α} (h : l.head? = some x) : x ∈ l := by
  cases l with
  | nil => cases h
  | cons a l =>
    injection h with h
    subst h
    exact List.mem_cons_self a l

theorem tryMatch_cases {anchored : Bool} {s : Str} {m : RMatch} {r : Str}
    (h : tryMatch anchored s = some (m, r)) :
    (m, r) ∈ tryAlt1 s ∨ (m, r) ∈ tryAlt2 anchored s := by
  unfold tryMatch at h
  exact List.mem_append.1 (head?_mem h)

theorem finditerAux_g3 :
    ∀ (fuel : Nat) (anchored : Bool) (s : Str) (m : RMatch), m ∈ finditerAux fuel anchored s →
      ∀ c, m.g3 = some c →
        Group3Shape c ∧ ∃ o, m.g1 = some o ∧ FontOpenShape o := by
  intro fuel
  induction fuel with
  | zero => intro anchored s m hm; cases hm
  | succ fuel ih =>
    intro anchored s m hm c hc
    cases s with
    | nil => cases hm
    | cons ch rest =>
      rw [finditerAux_succ_cons] at hm
      cases htm : tryMatch anchored (ch :: rest) with
      | none =>
        rw [htm] at hm
        exact ih (ch = '>') rest m hm c hc
      | some p =>
        obtain ⟨m0, r0⟩ := p
        rw [htm] at hm
        rcases List.mem_cons.1 hm with rfl | hm2
        · rcases tryMatch_cases htm with h1 | h2
          · obtain ⟨⟨c2, hc2, hsh⟩, ho⟩ := tryAlt1_mem h1
            rw [hc] at hc2
            injection hc2 with hc2
            exact ⟨hc2 ▸ hsh, ho⟩
          · rw [(tryAlt2_mem h2).1] at hc
            cases hc
        · exact ih (endsGt m0.mtext) r0 m hm2 c hc

/-- **C8 (amended).** In every tokenizer match whose group 3 participates
(a tagged run), the closing capture consists of *one or more* font-closing
tokens followed by the final `>`, while the opening capture is always
exactly one font-opening tag: the `(?(1)...)` conditional only tests that
group 1 matched at all, so the closing-token count is not tied to the
opening-token count. -/
theorem claim_C8 (s : Str) (m : RMatch) (hm : m ∈ finditer s) (c : Str)
    (hc : m.g3 = some c) :
    Group3Shape c ∧ ∃ o, m.g1 = some o ∧ FontOpenShape o :=
  finditerAux_g3 (s.length + 1) true s m hm c hc

theorem claim_C8_witness :
    Group3Shape (("</font</font>").toList) ∧
    ∃ o, (RMatch.mk (some (("<font>").toList)) (some (("Hi").toList))
        (some (("</font</font>").toList)) none
        (("<font>Hi</font</font>").toList)).g1 = some o ∧ FontOpenShape o :=
  claim_C8 (("<font>Hi</font</font>").toList)
    (RMatch.mk (some (("<font>").toList)) (some (("Hi").toList))
      (some (("</font</font>").toList)) none (("<font>Hi</font</font>").toList))
    (by decide) (("</font</font>").toList) (by decide)

/-- **C8 (counterexample).** On `<font>Hi</font</font>` the single match
consumes one opening font token but two closing font tokens (counted by
their `<` characters), so the required closing count does not equal the
opening count. -/
theorem claim_C8_cex :
    (srtLineParse (("<font>Hi</font</font>").toList) false).frases.map
      (fun f => (f.open_tags.countP (fun c => c = '<'),
                 f.closing_tags.countP (fun c => c = '<'))) = [(1, 2)] ∧
    (1 : Nat) ≠ 2 := by
  refine ⟨by decide, by decide⟩

end TranslateSubs
